import Mathlib

/-!
Verification of the mailcam detection pipeline.

Shallow embedding of:
* `src/detector/mailcam_detector_onnx.py` — `nms`, `ensure_probs`,
  `decode_yolo_output`, `run_detection`, `DailyCarrierTracker`;
* `src/mailcam_bundle/mailcam_sidecar.py` — `_coerce_services`,
  `_ensure_reset_if_needed`, `on_message`;
* `src/detector/twostage.py` — the fallback-proposal and crop logic of
  `two_stage_hits`.

Real-valued model arithmetic is idealized: numpy float arrays become lists of
rationals (or of reals where the sigmoid of `ensure_probs` is involved).
-/

namespace Mailcam

/-- One row of the `xyxy` box array: corner coordinates as floats. -/
structure Box where
  x1 : ℚ
  y1 : ℚ
  x2 : ℚ
  y2 : ℚ
deriving DecidableEq

instance : Inhabited Box := ⟨⟨0, 0, 0, 0⟩⟩

/-- Intersection-over-union of two boxes exactly as the `nms` loop computes it,
including the `1e-6` smoothing term added to the denominator. -/
def iou (a b : Box) : ℚ :=
  let xx1 := max a.x1 b.x1
  let yy1 := max a.y1 b.y1
  let xx2 := min a.x2 b.x2
  let yy2 := min a.y2 b.y2
  let inter := max 0 (xx2 - xx1) * max 0 (yy2 - yy1)
  let a_i := (a.x2 - a.x1) * (a.y2 - a.y1)
  let a_r := (b.x2 - b.x1) * (b.y2 - b.y1)
  inter / (a_i + a_r - inter + 1 / 1000000)

/-- Descending-score comparison on candidate indices, the order produced by
`np.argsort(-scores)`.  Out-of-range indices read score 0, matching `getD`. -/
def scoreGE (scores : List ℚ) (a b : Nat) : Prop :=
  scores.getD b 0 ≤ scores.getD a 0

instance (scores : List ℚ) : DecidableRel (scoreGE scores) := fun a b =>
  inferInstanceAs (Decidable (scores.getD b 0 ≤ scores.getD a 0))

instance (scores : List ℚ) : IsTotal Nat (scoreGE scores) :=
  ⟨fun a b => le_total (scores.getD b 0) (scores.getD a 0)⟩

instance (scores : List ℚ) : IsTrans Nat (scoreGE scores) :=
  ⟨fun _ _ _ h1 h2 => le_trans h2 h1⟩

/-- `idx = np.argsort(-scores)`: the indices of `scores`, sorted so that the
scores are descending. -/
def argsort (scores : List ℚ) : List Nat :=
  List.insertionSort (scoreGE scores) (List.range scores.length)

/-- The greedy loop of `nms`: keep the first (highest-scoring) pending index,
drop every later pending index whose IoU with it reaches the threshold,
repeat.  The `fuel` argument only bounds the number of iterations so that the
recursion is structural; every iteration strictly shrinks the pending list, so
the initial pending length is such a bound. -/
def nmsLoop (xyxy : List Box) (iou_threshold : ℚ) : Nat → List Nat → List Nat
  | _, [] => []
  | 0, _ :: _ => []
  | fuel + 1, i :: rest =>
      i :: nmsLoop xyxy iou_threshold fuel
        (rest.filter fun j =>
          decide (iou (xyxy.getD i default) (xyxy.getD j default) < iou_threshold))

/-- `nms(xyxy, scores, iou_threshold)` from `mailcam_detector_onnx.py`:
non-maximum suppression returning the kept index list. -/
def nms (xyxy : List Box) (scores : List ℚ) (iou_threshold : ℚ) : List Nat :=
  nmsLoop xyxy iou_threshold (argsort scores).length (argsort scores)

theorem iou_comm (a b : Box) : iou a b = iou b a := by
  simp only [iou]
  rw [max_comm a.x1 b.x1, max_comm a.y1 b.y1, min_comm a.x2 b.x2, min_comm a.y2 b.y2,
    add_comm ((a.x2 - a.x1) * (a.y2 - a.y1))]

theorem mem_argsort (scores : List ℚ) (j : Nat) :
    j ∈ argsort scores ↔ j < scores.length := by
  rw [argsort, (List.perm_insertionSort (scoreGE scores) (List.range scores.length)).mem_iff]
  exact List.mem_range

theorem argsort_sorted (scores : List ℚ) :
    (argsort scores).Sorted (scoreGE scores) :=
  List.sorted_insertionSort (scoreGE scores) _

theorem nmsLoop_subset (xyxy : List Box) (t : ℚ) :
    ∀ (fuel : Nat) (l : List Nat), ∀ j ∈ nmsLoop xyxy t fuel l, j ∈ l := by
  intro fuel
  induction fuel with
  | zero =>
      intro l j hj
      match l with
      | [] => simp [nmsLoop] at hj
      | i :: rest => simp [nmsLoop] at hj
  | succ n ih =>
      intro l j hj
      match l with
      | [] => simp [nmsLoop] at hj
      | i :: rest =>
          rw [nmsLoop] at hj
          rcases List.mem_cons.mp hj with h | h
          · exact h ▸ List.mem_cons_self _ _
          · exact List.mem_cons_of_mem _ (List.mem_of_mem_filter (ih _ j h))

theorem nmsLoop_pairwise (xyxy : List Box) (t : ℚ) :
    ∀ (fuel : Nat) (l : List Nat),
      (nmsLoop xyxy t fuel l).Pairwise
        (fun i j => iou (xyxy.getD i default) (xyxy.getD j default) < t) := by
  intro fuel
  induction fuel with
  | zero =>
      intro l
      match l with
      | [] => simp [nmsLoop]
      | i :: rest => simp [nmsLoop]
  | succ n ih =>
      intro l
      match l with
      | [] => simp [nmsLoop]
      | i :: rest =>
          rw [nmsLoop]
          refine List.Pairwise.cons ?_ (ih _)
          intro j hj
          have hjf := nmsLoop_subset xyxy t _ _ j hj
          exact of_decide_eq_true (List.mem_filter.mp hjf).2

/-- State of `DailyCarrierTracker`: the fixed carrier list, the per-carrier
optional first-detection timestamp (a `dict` in the source, with exactly the
carriers as keys, so absent keys read `None`), the current day reference
(modelled as local midnight in epoch seconds), and the reset hour. -/
structure DailyCarrierTracker where
  carriers : List String
  detections : String → Option ℚ
  current_day : Int
  reset_hour : Int

/-- Python truthiness of an optional float: `None`, `0` and `0.0` are falsy. -/
def truthyTs : Option ℚ → Bool
  | none => false
  | some t => decide (t ≠ 0)

/-- The Python idiom `timestamp or time.time()`: substitute `now` whenever the
given timestamp is falsy (`None` or zero). -/
def orNow (timestamp : Option ℚ) (now : ℚ) : ℚ :=
  match timestamp with
  | none => now
  | some t => if t = 0 then now else t

theorem orNow_ne_zero (timestamp : Option ℚ) (now : ℚ) (h : now ≠ 0) :
    orNow timestamp now ≠ 0 := by
  match timestamp with
  | none => exact h
  | some t =>
      by_cases ht : t = 0
      · simp only [orNow, if_pos ht]
        exact h
      · simp only [orNow, if_neg ht]
        exact ht

namespace DailyCarrierTracker

/-- `mark_detected(carrier, timestamp)`: record the first detection of the day.
`now` stands for `time.time()`. -/
def mark_detected (s : DailyCarrierTracker) (carrier : String)
    (timestamp : Option ℚ) (now : ℚ) : DailyCarrierTracker × Bool :=
  if carrier ∈ s.carriers then
    if s.detections carrier = none then
      ({ s with detections := fun c =>
          if c = carrier then some (orNow timestamp now) else s.detections c }, true)
    else (s, false)
  else (s, false)

/-- `is_detected(carrier)`: `self.detections.get(carrier) is not None`. -/
def is_detected (s : DailyCarrierTracker) (carrier : String) : Bool :=
  (s.detections carrier).isSome

/-- `get_summary()`, restricted to the per-carrier part: each carrier maps to a
`detected` flag and, when the stored timestamp is truthy, that timestamp. -/
def get_summary (s : DailyCarrierTracker) : List (String × Bool × Option ℚ) :=
  s.carriers.map fun c =>
    if truthyTs (s.detections c) then (c, true, s.detections c) else (c, false, none)

/-- `reference.replace(hour=0, minute=0, second=0, microsecond=0)`: truncate a
local-epoch-seconds instant to its local midnight. -/
def midnight (t : Int) : Int := t - t % 86400

/-- The `datetime.hour` field of a local-epoch-seconds instant. -/
def hourOf (t : Int) : Int := t % 86400 / 3600

/-- `_get_current_day()`: midnight of today, or of yesterday when the local
hour is before the reset hour. -/
def get_current_day (now : Int) (reset_hour : Int) : Int :=
  if hourOf now < reset_hour then midnight (now - 86400) else midnight now

/-- `check_and_reset()`: clear all detections and adopt the recomputed day when
it is strictly past the stored one. -/
def check_and_reset (s : DailyCarrierTracker) (now : Int) :
    DailyCarrierTracker × Bool :=
  let current_day := get_current_day now s.reset_hour
  if s.current_day < current_day then
    ({ s with detections := fun _ => none, current_day := current_day }, true)
  else (s, false)

end DailyCarrierTracker

/-- Tracker states reachable from the constructor through `mark_detected` and
`check_and_reset`.  `time.time()` is always positive, so the `now` fed to
`mark_detected` carries `0 < now`. -/
inductive Reachable : DailyCarrierTracker → Prop
  | init (carriers : List String) (day rh : Int) :
      Reachable ⟨carriers, fun _ => none, day, rh⟩
  | mark (s : DailyCarrierTracker) (carrier : String) (timestamp : Option ℚ)
      (now : ℚ) (hs : Reachable s) (hnow : 0 < now) :
      Reachable (s.mark_detected carrier timestamp now).1
  | reset (s : DailyCarrierTracker) (now : Int) (hs : Reachable s) :
      Reachable (s.check_and_reset now).1

theorem reachable_inv (s : DailyCarrierTracker) (h : Reachable s) (c : String) :
    (∀ t, s.detections c = some t → t ≠ 0) ∧ (c ∉ s.carriers → s.detections c = none) := by
  induction h with
  | init carriers day rh =>
      exact ⟨fun t ht => Option.noConfusion ht, fun _ => rfl⟩
  | mark s carrier timestamp now hs hnow ih =>
      rw [DailyCarrierTracker.mark_detected]
      by_cases h1 : carrier ∈ s.carriers
      · by_cases h2 : s.detections carrier = none
        · rw [if_pos h1, if_pos h2]
          constructor
          · intro t ht
            simp only at ht
            by_cases hc : c = carrier
            · rw [if_pos hc] at ht
              have := Option.some.inj ht
              exact this ▸ orNow_ne_zero timestamp now (ne_of_gt hnow)
            · rw [if_neg hc] at ht
              exact ih.1 t ht
          · intro hcc
            have hc : c ≠ carrier := fun e => hcc (e ▸ h1)
            simp only [if_neg hc]
            exact ih.2 hcc
        · rw [if_pos h1, if_neg h2]
          exact ih
      · rw [if_neg h1]
        exact ih
  | reset s now hs ih =>
      rw [DailyCarrierTracker.check_and_reset]
      by_cases h1 : s.current_day < DailyCarrierTracker.get_current_day now s.reset_hour
      · simp only [if_pos h1]
        exact ⟨fun t ht => Option.noConfusion ht, fun _ => trivial⟩
      · simp only [if_neg h1]
        exact ih

/-- `set(map(str.lower, xs))` for a JSON string array. -/
def toLowerSet (xs : List String) : Finset String :=
  (xs.map String.toLower).toFinset

/-- A parsed JSON payload as the sidecar sees it: each recognized key is
present (`some`) or absent (`none`). -/
structure Payload where
  entered : Option (List String)
  current : Option (List String)
  today : Option (List String)
  ts : Option Int
  services : Option (List String)

/-- The sidecar's global mutable state: the `CURR` and `TODAY` sets and the
`LAST_RESET_DAY` marker. -/
structure SidecarState where
  CURR : Finset String
  TODAY : Finset String
  LAST_RESET_DAY : Option Int
deriving DecidableEq

/-- `_coerce_services(payload)`: normalize either accepted payload shape to
`(entered, current, today, ts)`; unknown shapes yield `ts = none`. -/
def coerce_services (p : Payload) (now : Int) :
    Finset String × Finset String × Finset String × Option Int :=
  if p.entered.isSome ∨ p.current.isSome ∨ p.today.isSome then
    (toLowerSet (p.entered.getD []), toLowerSet (p.current.getD []),
      toLowerSet (p.today.getD []), some (p.ts.getD now))
  else if p.services.isSome then
    (toLowerSet (p.services.getD []), ∅, ∅, some now)
  else
    (∅, ∅, ∅, none)

/-- `_ensure_reset_if_needed()`: clear `TODAY` once per local day, at the first
call whose hour has reached the reset hour. -/
def ensure_reset_if_needed (s : SidecarState) (day hour RESET_H : Int) :
    SidecarState :=
  if s.LAST_RESET_DAY ≠ some day ∧ RESET_H ≤ hour then
    { s with TODAY := ∅, LAST_RESET_DAY := some day }
  else s

/-- `on_message`: parse (done by the caller here), coerce, drop unknown
shapes, run the daily reset check, then merge `entered` into both sets and
let non-empty `current`/`today` arrays replace their sets.  `day` and `hour`
stand for the local day-of-year and hour at the time of the callback. -/
def on_message (s : SidecarState) (p : Payload) (now day hour RESET_H : Int) :
    SidecarState :=
  let c := coerce_services p now
  if c.2.2.2 = none then s
  else
    let s1 := ensure_reset_if_needed s day hour RESET_H
    let s2 := if c.1 ≠ ∅ then
        { s1 with CURR := s1.CURR ∪ c.1, TODAY := s1.TODAY ∪ c.1 } else s1
    let s3 := if c.2.1 ≠ ∅ then { s2 with CURR := c.2.1 } else s2
    if c.2.2.1 ≠ ∅ then { s3 with TODAY := c.2.2.1 } else s3

/-- A stage-1 proposal of `two_stage_hits`: a crop rectangle in frame pixels,
the label it came from, and its confidence. -/
structure TSProposal where
  x1 : Nat
  y1 : Nat
  x2 : Nat
  y2 : Nat
  via : String
  conf : ℚ
deriving DecidableEq

/-- The fallback step of `two_stage_hits`: when stage 1 produced no proposals,
synthesize the single centered crop of size `int(W/1.6)` by `int(H/1.6)`. -/
def fallback_proposals (W H : Nat) (proposals : List TSProposal) :
    List TSProposal :=
  if proposals.isEmpty then
    let nh := H * 10 / 16
    let nw := W * 10 / 16
    let y0 := (H - nh) / 2
    let x0 := (W - nw) / 2
    [⟨x0, y0, x0 + nw, y0 + nh, "center", 1⟩]
  else proposals

/-- The proposals whose crop stage 2 actually feeds to the brand model: the
first `max_vehicle_crops` proposals whose crop `im[y1:y2, x1:x2]` is
non-empty (`crop.size == 0` rows are skipped by the `continue`). -/
def brand_crops (max_vehicle_crops : Nat) (proposals : List TSProposal) :
    List TSProposal :=
  (proposals.take max_vehicle_crops).filter fun p =>
    decide (p.x1 < p.x2 ∧ p.y1 < p.y2)

/-- `sigmoid(x) = 1 / (1 + exp(-x))`. -/
noncomputable def sigmoid (x : ℝ) : ℝ := 1 / (1 + Real.exp (-x))

/-- `np.max` over a (nonempty) array; 0 on the empty list, which the decoder
never produces past its shape guard. -/
noncomputable def listMax : List ℝ → ℝ
  | [] => 0
  | x :: xs => xs.foldl max x

/-- `np.min` over a (nonempty) array; 0 on the empty list. -/
noncomputable def listMin : List ℝ → ℝ
  | [] => 0
  | x :: xs => xs.foldl min x

/-- `np.argmax`: index of the first maximal entry. -/
noncomputable def argmaxIdx : List ℝ → Nat
  | [] => 0
  | x :: xs =>
      match xs with
      | [] => 0
      | _ :: _ => if listMax xs ≤ x then 0 else argmaxIdx xs + 1

/-- `ensure_probs(obj, cls)`: apply the sigmoid to both arrays exactly when
some entry of either lies outside `[-0.5, 1.5]`. -/
noncomputable def ensure_probs (obj : List ℝ) (cls : List (List ℝ)) :
    List ℝ × List (List ℝ) :=
  if 3 / 2 < listMax obj ∨ listMin obj < -(1 / 2) ∨
      3 / 2 < listMax cls.flatten ∨ listMin cls.flatten < -(1 / 2) then
    (obj.map sigmoid, cls.map fun r => r.map sigmoid)
  else (obj, cls)

/-- `np.clip` of a scalar to `[lo, hi]`. -/
noncomputable def clip (x lo hi : ℝ) : ℝ := min (max x lo) hi

/-- Number of columns of a row-major matrix: `o.shape[1]`. -/
def colsOf (o : List (List ℝ)) : Nat := (o.headD []).length

/-- The body of `decode_yolo_output` after the orientation of the raw tensor
has been normalized to rows of `[x, y, w, h, objectness, class_scores...]`:
shape guard, `ensure_probs`, per-row best class and combined confidence,
confidence mask, box conversion and de-letterboxing, and clipping. -/
noncomputable def decodeNormalized (o : List (List ℝ)) (conf_threshold : ℝ)
    (img_width img_height : Nat) (imgsz : Nat) :
    List (List ℝ) × List Nat × List ℝ :=
  if colsOf o < 6 then ([], [], [])
  else
    let obj := o.map fun r => r.getD 4 0
    let cls_probs := o.map fun r => r.drop 5
    let oc := ensure_probs obj cls_probs
    let cls_ids := oc.2.map argmaxIdx
    let cls_max := oc.2.map fun r => r.getD (argmaxIdx r) 0
    let conf := List.zipWith (fun a b => a * b) oc.1 cls_max
    let rows := o.zip (conf.zip cls_ids)
    let kept := rows.filter fun rc => decide (conf_threshold ≤ rc.2.1)
    let scale := min ((imgsz : ℝ) / (img_width : ℝ)) ((imgsz : ℝ) / (img_height : ℝ))
    let pad_x := ((imgsz : ℝ) - (img_width : ℝ) * scale) / 2
    let pad_y := ((imgsz : ℝ) - (img_height : ℝ) * scale) / 2
    let boxes := kept.map fun rc =>
      let cx := rc.1.getD 0 0
      let cy := rc.1.getD 1 0
      let w := rc.1.getD 2 0
      let h := rc.1.getD 3 0
      [clip ((cx - w / 2 - pad_x) / scale) 0 (img_width : ℝ),
        clip ((cy - h / 2 - pad_y) / scale) 0 (img_height : ℝ),
        clip ((cx + w / 2 - pad_x) / scale) 0 (img_width : ℝ),
        clip ((cy + h / 2 - pad_y) / scale) 0 (img_height : ℝ)]
    (boxes, kept.map fun rc => rc.2.2, kept.map fun rc => rc.2.1)

/-- `decode_yolo_output(output, ...)` (with the batch dimension already
dropped): transpose the tensor when its first axis is the shorter one, then
decode the normalized rows. -/
noncomputable def decode_yolo_output (o : List (List ℝ)) (conf_threshold : ℝ)
    (img_width img_height : Nat) (imgsz : Nat) :
    List (List ℝ) × List Nat × List ℝ :=
  decodeNormalized (if o.length < colsOf o then o.transpose else o)
    conf_threshold img_width img_height imgsz

/-- Python `round` to an integer: round half to even. -/
def pyRound (x : ℚ) : Int :=
  if x - ⌊x⌋ < 1 / 2 then ⌊x⌋
  else if 1 / 2 < x - ⌊x⌋ then ⌊x⌋ + 1
  else if 2 ∣ ⌊x⌋ then ⌊x⌋ else ⌊x⌋ + 1

/-- Python `round(x, 3)`. -/
def round3 (x : ℚ) : ℚ := (pyRound (x * 1000) : ℚ) / 1000

/-- Python `round(x, 6)`. -/
def round6 (x : ℚ) : ℚ := (pyRound (x * 1000000) : ℚ) / 1000000

/-- One element of the hit list built by `run_detection`. -/
structure Hit where
  label : String
  conf : ℚ
  bbox : Box
  area_frac : ℚ
deriving DecidableEq

/-- The post-decode portion of `run_detection`: the model call and
`decode_yolo_output` are the environment here, so the decoded parallel arrays
`(xyxy, cls_ids, confs)` are taken as input.  Applies `nms` at IoU 0.45 on the
full-precision confidences, then the final label/area filter, rounding the
reported confidence to 3 digits and the reported area fraction to 6 digits in
the output records only. -/
def run_detection (xyxy : List Box) (cls_ids : List Nat) (confs : List ℚ)
    (labels : Nat → String) (allow_labels : List String)
    (area_min_frac : ℚ) (img_width img_height : Nat) : List Hit :=
  let keep := nms xyxy confs (45 / 100)
  let kxyxy := keep.map fun i => xyxy.getD i default
  let kcls := keep.map fun i => cls_ids.getD i 0
  let kconf := keep.map fun i => confs.getD i 0
  let img_area : ℚ := (img_width : ℚ) * (img_height : ℚ)
  (List.range kxyxy.length).filterMap fun i =>
    let label := labels (kcls.getD i 0)
    let conf := kconf.getD i 0
    let b := kxyxy.getD i default
    let box_area := (b.x2 - b.x1) * (b.y2 - b.y1)
    let area_frac := box_area / max 1 img_area
    if label ∈ allow_labels ∧ area_min_frac ≤ area_frac then
      some ⟨label, round3 conf, b, round6 area_frac⟩
    else none

/-! ## Claims -/

/-- C1: for every candidate list and IoU threshold, the kept index set of
`nms` contains no two distinct indices whose pairwise IoU (as `nms` computes
it) reaches the threshold, hence none whose IoU is above it; some index of
maximal confidence is always kept; and an empty candidate list yields an empty
kept set. -/
theorem nms_kept_set_spec (xyxy : List Box) (scores : List ℚ) (t : ℚ) :
    (∀ i ∈ nms xyxy scores t, ∀ j ∈ nms xyxy scores t, i ≠ j →
      iou (xyxy.getD i default) (xyxy.getD j default) < t) ∧
    (scores ≠ [] → ∃ i ∈ nms xyxy scores t,
      ∀ j < scores.length, scores.getD j 0 ≤ scores.getD i 0) ∧
    nms xyxy [] t = [] := by
  refine ⟨?_, ?_, by simp [nms, argsort, nmsLoop]⟩
  · intro i hi j hj hne
    have hsym : Symmetric fun i j =>
        iou (xyxy.getD i default) (xyxy.getD j default) < t := by
      intro a b h
      rw [iou_comm]
      exact h
    exact List.Pairwise.forall hsym (nmsLoop_pairwise xyxy t _ (argsort scores)) hi hj hne
  · intro hs
    have h0 : 0 < scores.length := List.length_pos.mpr hs
    have hmem0 : 0 ∈ argsort scores := (mem_argsort scores 0).mpr h0
    match hargs : argsort scores with
    | [] => rw [hargs] at hmem0; cases hmem0
    | i :: rest =>
        refine ⟨i, ?_, ?_⟩
        · rw [nms, hargs, List.length_cons, nmsLoop]
          exact List.mem_cons_self _ _
        · intro j hj
          have hjmem : j ∈ argsort scores := (mem_argsort scores j).mpr hj
          rw [hargs] at hjmem
          rcases List.mem_cons.mp hjmem with rfl | hjr
          · exact le_rfl
          · have hsort := argsort_sorted scores
            rw [hargs] at hsort
            exact List.rel_of_sorted_cons hsort j hjr

theorem nmsEvalTwoBoxes :
    nms [⟨0, 0, 10, 10⟩, ⟨20, 20, 30, 30⟩] [9 / 10, 8 / 10] (45 / 100) = [0, 1] := by
  norm_num [nms, argsort, List.insertionSort, List.orderedInsert, scoreGE, nmsLoop, iou,
    min_def, max_def, List.filter]

/-- Witness for C1 at a concrete input: two disjoint boxes with scores 0.9 and
0.8 at threshold 0.45 are both kept, so their IoU is below the threshold, some
maximal-score index is kept, and the empty candidate list gives the empty kept
set. -/
theorem nms_kept_set_spec_witness :
    iou ⟨0, 0, 10, 10⟩ ⟨20, 20, 30, 30⟩ < 45 / 100 ∧
    (∃ i ∈ nms [⟨0, 0, 10, 10⟩, ⟨20, 20, 30, 30⟩] [9 / 10, 8 / 10] (45 / 100),
      ∀ j < ([9 / 10, 8 / 10] : List ℚ).length,
        ([9 / 10, 8 / 10] : List ℚ).getD j 0 ≤ ([9 / 10, 8 / 10] : List ℚ).getD i 0) ∧
    nms [⟨0, 0, 10, 10⟩, ⟨20, 20, 30, 30⟩] [] (45 / 100) = [] := by
  have h := nms_kept_set_spec [⟨0, 0, 10, 10⟩, ⟨20, 20, 30, 30⟩] [9 / 10, 8 / 10] (45 / 100)
  refine ⟨?_, h.2.1 (by simp), h.2.2⟩
  have h0 : (0 : Nat) ∈ nms [⟨0, 0, 10, 10⟩, ⟨20, 20, 30, 30⟩] [9 / 10, 8 / 10] (45 / 100) := by
    rw [nmsEvalTwoBoxes]
    simp
  have h1 : (1 : Nat) ∈ nms [⟨0, 0, 10, 10⟩, ⟨20, 20, 30, 30⟩] [9 / 10, 8 / 10] (45 / 100) := by
    rw [nmsEvalTwoBoxes]
    simp
  exact h.1 0 h0 1 h1 (by decide)

open DailyCarrierTracker in
/-- C3: within one tracker day (no reset between the calls), marking a tracked
carrier that has no recorded detection with a genuine (nonzero) timestamp `t1`
returns `true` and records `t1`; a second `mark_detected` for the same carrier
returns `false` and leaves the state — hence the recorded `t1` — unchanged,
and `get_summary` reports `t1` only; marking a carrier outside the configured
set returns `false` and mutates nothing. -/
theorem mark_detected_idempotent_per_day (s : DailyCarrierTracker)
    (c cu : String) (t1 t2 now1 now2 : ℚ)
    (hc : c ∈ s.carriers) (hfresh : s.detections c = none) (ht1 : t1 ≠ 0)
    (hcu : cu ∉ s.carriers) :
    (s.mark_detected c (some t1) now1).2 = true ∧
    (s.mark_detected c (some t1) now1).1.detections c = some t1 ∧
    (s.mark_detected c (some t1) now1).1.mark_detected c (some t2) now2 =
      ((s.mark_detected c (some t1) now1).1, false) ∧
    (c, true, some t1) ∈ (s.mark_detected c (some t1) now1).1.get_summary ∧
    s.mark_detected cu (some t2) now2 = (s, false) := by
  have hstep : s.mark_detected c (some t1) now1 =
      ({ s with detections := fun x => if x = c then some t1 else s.detections x }, true) := by
    rw [mark_detected, if_pos hc, if_pos hfresh]
    simp [orNow, ht1]
  refine ⟨by rw [hstep], by rw [hstep]; simp, ?_, ?_, ?_⟩
  · rw [hstep]
    rw [mark_detected]
    simp only
    rw [if_pos hc, if_neg (by simp)]
  · rw [hstep]
    simp only [get_summary]
    refine List.mem_map.mpr ⟨c, hc, ?_⟩
    simp [truthyTs, ht1]
  · rw [mark_detected, if_neg hcu]

open DailyCarrierTracker in
/-- Witness for C3: a fresh one-carrier tracker marks `usps` at timestamp 5,
a second mark at timestamp 7 is rejected without mutation, the summary reports
the first timestamp, and the unknown carrier `fedex` is rejected. -/
theorem mark_detected_idempotent_per_day_witness :
    ((⟨["usps"], fun _ => none, 0, 3⟩ : DailyCarrierTracker).mark_detected
        "usps" (some 5) 1).2 = true ∧
    ((⟨["usps"], fun _ => none, 0, 3⟩ : DailyCarrierTracker).mark_detected
        "usps" (some 5) 1).1.detections "usps" = some 5 ∧
    ((⟨["usps"], fun _ => none, 0, 3⟩ : DailyCarrierTracker).mark_detected
          "usps" (some 5) 1).1.mark_detected "usps" (some 7) 2 =
      (((⟨["usps"], fun _ => none, 0, 3⟩ : DailyCarrierTracker).mark_detected
          "usps" (some 5) 1).1, false) ∧
    ("usps", true, some 5) ∈ ((⟨["usps"], fun _ => none, 0, 3⟩ :
        DailyCarrierTracker).mark_detected "usps" (some 5) 1).1.get_summary ∧
    (⟨["usps"], fun _ => none, 0, 3⟩ : DailyCarrierTracker).mark_detected
        "fedex" (some 7) 2 = (⟨["usps"], fun _ => none, 0, 3⟩, false) :=
  mark_detected_idempotent_per_day ⟨["usps"], fun _ => none, 0, 3⟩ "usps" "fedex"
    5 7 1 2 (by simp) rfl (by norm_num) (by simp)

open DailyCarrierTracker in
/-- C4: with reset hour `r`, the recomputed tracker day is today's local
midnight when the local hour is at least `r` and yesterday's local midnight
when it is below `r`; `check_and_reset` clears every carrier and adopts the
new day exactly when the recomputed day is strictly later than the stored one;
and after one call, any further call whose recomputed day is the same returns
`false` and changes nothing, so a boundary crossing clears at most once. -/
theorem check_and_reset_day_boundary (s : DailyCarrierTracker) (now now2 : Int) :
    (s.reset_hour ≤ hourOf now →
      get_current_day now s.reset_hour = midnight now) ∧
    (hourOf now < s.reset_hour →
      get_current_day now s.reset_hour = midnight now - 86400) ∧
    (s.current_day < get_current_day now s.reset_hour →
      s.check_and_reset now =
        ({ s with detections := (fun _ => none),
                  current_day := get_current_day now s.reset_hour }, true)) ∧
    (¬ s.current_day < get_current_day now s.reset_hour →
      s.check_and_reset now = (s, false)) ∧
    (get_current_day now2 s.reset_hour = get_current_day now s.reset_hour →
      (s.check_and_reset now).1.check_and_reset now2 =
        ((s.check_and_reset now).1, false)) := by
  refine ⟨?_, ?_, ?_, ?_, ?_⟩
  · intro hr
    rw [get_current_day, if_neg (not_lt.mpr hr)]
  · intro hr
    rw [get_current_day, if_pos hr]
    simp only [midnight]
    omega
  · intro hlt
    simp only [check_and_reset]
    rw [if_pos hlt]
  · intro hlt
    simp only [check_and_reset]
    rw [if_neg hlt]
  · intro heq
    by_cases h1 : s.current_day < get_current_day now s.reset_hour
    · simp only [check_and_reset]
      rw [if_pos h1]
      simp only
      rw [heq, if_neg (lt_irrefl _)]
    · simp only [check_and_reset]
      rw [if_neg h1]
      simp only
      rw [heq, if_neg h1]

open DailyCarrierTracker in
/-- Witness for C4 with reset hour 3: at local hour 4 the day is today's
midnight; at local hour 2 it is yesterday's midnight; a tracker whose stored
day is yesterday resets exactly once at hour 4, and a second check one hour
later changes nothing. -/
theorem check_and_reset_day_boundary_witness :
    get_current_day (4 * 3600) 3 = midnight (4 * 3600) ∧
    get_current_day (2 * 3600) 3 = midnight (2 * 3600) - 86400 ∧
    ((⟨["usps"], fun _ => none, -86400, 3⟩ : DailyCarrierTracker).check_and_reset
        (4 * 3600)) =
      ({ (⟨["usps"], fun _ => none, -86400, 3⟩ : DailyCarrierTracker) with
          detections := (fun _ => none), current_day := get_current_day (4 * 3600) 3 }, true) ∧
    ((⟨["usps"], fun _ => none, -86400, 3⟩ : DailyCarrierTracker).check_and_reset
          (4 * 3600)).1.check_and_reset (5 * 3600) =
      (((⟨["usps"], fun _ => none, -86400, 3⟩ :
          DailyCarrierTracker).check_and_reset (4 * 3600)).1, false) := by
  have h := check_and_reset_day_boundary
    (⟨["usps"], fun _ => none, -86400, 3⟩ : DailyCarrierTracker) (4 * 3600) (5 * 3600)
  have h2 := check_and_reset_day_boundary
    (⟨["usps"], fun _ => none, -86400, 3⟩ : DailyCarrierTracker) (2 * 3600) 0
  exact ⟨h.1 (by decide), h2.2.1 (by decide), h.2.2.1 (by decide), h.2.2.2.2 (by decide)⟩

open DailyCarrierTracker in
/-- C10: on every tracker state reachable through the constructor,
`mark_detected` and `check_and_reset` (with the real clock, which is never
zero), `is_detected c` returns `true` exactly when `get_summary` carries a
`detected = true` entry for `c`: the falsy-timestamp substitution in
`mark_detected` keeps every stored timestamp nonzero, so the is-not-None test
and the truthiness test agree. -/
theorem is_detected_iff_summary (s : DailyCarrierTracker) (h : Reachable s)
    (c : String) :
    s.is_detected c = true ↔ ∃ t, (c, true, t) ∈ s.get_summary := by
  constructor
  · intro hd
    rw [is_detected, Option.isSome_iff_exists] at hd
    obtain ⟨t, ht⟩ := hd
    have hinv := reachable_inv s h c
    have htz : t ≠ 0 := hinv.1 t ht
    have hcc : c ∈ s.carriers := by
      by_contra hnc
      rw [hinv.2 hnc] at ht
      cases ht
    refine ⟨some t, ?_⟩
    rw [get_summary]
    refine List.mem_map.mpr ⟨c, hcc, ?_⟩
    rw [ht]
    simp [truthyTs, htz]
  · rintro ⟨t, hmem⟩
    rw [get_summary] at hmem
    obtain ⟨a, ha, hfa⟩ := List.mem_map.mp hmem
    by_cases hta : truthyTs (s.detections a) = true
    · rw [if_pos hta] at hfa
      have hac : a = c := congrArg Prod.fst hfa
      subst hac
      match hsd : s.detections a with
      | none => rw [hsd] at hta; simp [truthyTs] at hta
      | some u => rw [is_detected, hsd]; rfl
    · rw [if_neg hta] at hfa
      have : (false : Bool) = true := congrArg (fun p => p.2.1) hfa
      cases this

open DailyCarrierTracker in
/-- Witness for C10 on a concrete reachable state: a one-carrier tracker after
a successful mark of `usps`. -/
theorem is_detected_iff_summary_witness :
    ((⟨["usps"], fun _ => none, 0, 3⟩ : DailyCarrierTracker).mark_detected
        "usps" (some 5) 1).1.is_detected "usps" = true ↔
      ∃ t, ("usps", true, t) ∈ ((⟨["usps"], fun _ => none, 0, 3⟩ :
          DailyCarrierTracker).mark_detected "usps" (some 5) 1).1.get_summary :=
  is_detected_iff_summary _
    (Reachable.mark ⟨["usps"], fun _ => none, 0, 3⟩ "usps" (some 5) 1
      (Reachable.init ["usps"] 0 3) (by norm_num)) "usps"

theorem ensure_reset_if_needed_CURR (s : SidecarState) (day hour RESET_H : Int) :
    (ensure_reset_if_needed s day hour RESET_H).CURR = s.CURR := by
  rw [ensure_reset_if_needed]
  split <;> rfl

theorem ensure_reset_if_needed_of_noreset (s : SidecarState)
    (day hour RESET_H : Int)
    (h : s.LAST_RESET_DAY = some day ∨ hour < RESET_H) :
    ensure_reset_if_needed s day hour RESET_H = s := by
  rw [ensure_reset_if_needed, if_neg]
  rcases h with h | h
  · exact fun hc => hc.1 (by rw [h])
  · exact fun hc => absurd hc.2 (not_le.mpr h)

/-- Counterexample for C5 as stated: an accepted event-shaped message whose
payload gives the explicit `current` array `[]` does not replace the `CURR`
set with the (empty) lower-cased contents of that array; the handler guards
each merge with Python truthiness (`if current:`), so an explicit empty array
is ignored and `CURR` keeps its old value. -/
theorem on_message_event_current_cex :
    (⟨none, some [], none, some 5, none⟩ : Payload).current = some [] ∧
    toLowerSet [] = (∅ : Finset String) ∧
    on_message ⟨{"a"}, {"b"}, some 0⟩ ⟨none, some [], none, some 5, none⟩
        100 0 12 3 = ⟨{"a"}, {"b"}, some 0⟩ ∧
    ({"a"} : Finset String) ≠ ∅ := by
  refine ⟨rfl, rfl, ?_, by decide⟩
  decide

/-- C5 amended: an accepted event-shaped message replaces `CURR` with exactly
the lower-cased contents of its explicit `current` array provided that array
is non-empty after lower-casing (an explicit empty array is ignored by the
truthiness guard), and provided the message carries no non-empty `entered`
array and the handler's once-a-day reset does not fire during the callback;
under the same no-reset condition the `TODAY` set is left unchanged unless the
message also gives a non-empty `today` array. -/
theorem on_message_event_current_replaces (s : SidecarState) (p : Payload)
    (now day hour RESET_H : Int) (cs : List String)
    (hcs : p.current = some cs) (hne : toLowerSet cs ≠ ∅)
    (hent : toLowerSet (p.entered.getD []) = ∅)
    (hnoreset : s.LAST_RESET_DAY = some day ∨ hour < RESET_H) :
    (on_message s p now day hour RESET_H).CURR = toLowerSet cs ∧
    (toLowerSet (p.today.getD []) = ∅ →
      (on_message s p now day hour RESET_H).TODAY = s.TODAY) := by
  have hshape : p.entered.isSome ∨ p.current.isSome ∨ p.today.isSome := by
    right
    left
    rw [hcs]
    rfl
  have hco : coerce_services p now = (toLowerSet (p.entered.getD []),
      toLowerSet (p.current.getD []), toLowerSet (p.today.getD []),
      some (p.ts.getD now)) := by
    rw [coerce_services, if_pos hshape]
  have hcur : p.current.getD [] = cs := by rw [hcs]; rfl
  simp only [on_message, hco, hcur, hent]
  rw [if_neg (by simp)]
  rw [ensure_reset_if_needed_of_noreset s day hour RESET_H hnoreset]
  rw [if_neg (show ¬((∅ : Finset String) ≠ ∅) from fun h => h rfl), if_pos hne]
  by_cases htd : toLowerSet (p.today.getD []) ≠ ∅
  · rw [if_pos htd]
    exact ⟨rfl, fun he => absurd he htd⟩
  · rw [if_neg htd]
    exact ⟨rfl, fun _ => rfl⟩

/-- Witness for the amended C5: an event message with `current = ["UPS"]` and
nothing else, handled with no pending reset, replaces `CURR` by `{"ups"}` and
leaves `TODAY` untouched. -/
theorem on_message_event_current_replaces_witness :
    (on_message ⟨{"a"}, {"b"}, some 0⟩ ⟨none, some ["UPS"], none, some 5, none⟩
        100 0 12 3).CURR = toLowerSet ["UPS"] ∧
    (toLowerSet (((⟨none, some ["UPS"], none, some 5, none⟩ : Payload)).today.getD []) = ∅ →
      (on_message ⟨{"a"}, {"b"}, some 0⟩ ⟨none, some ["UPS"], none, some 5, none⟩
        100 0 12 3).TODAY = ({"b"} : Finset String)) :=
  on_message_event_current_replaces ⟨{"a"}, {"b"}, some 0⟩
    ⟨none, some ["UPS"], none, some 5, none⟩ 100 0 12 3 ["UPS"]
    rfl (by simp [toLowerSet]) rfl (Or.inl rfl)

/-- Counterexample for C6 as stated: handling a services-shaped message does
not always produce `TODAY ∪ lowercase(S)` — at the first callback past the
reset hour on a new day, `_ensure_reset_if_needed` clears `TODAY` inside the
same lock before the merge, so an entry present in `TODAY` is lost. -/
theorem on_message_services_cex :
    (on_message ⟨∅, {"ups"}, some 0⟩ ⟨none, none, none, none, some []⟩
        100 1 3 3).TODAY ≠ ({"ups"} : Finset String) ∪ toLowerSet [] := by
  decide

/-- C6 amended: handling a services-shaped message carrying array `S` always
updates `CURR` to `CURR ∪ lowercase(S)`, and updates `TODAY` to
`TODAY ∪ lowercase(S)` provided the once-a-day reset does not fire during the
callback (at the first callback past the reset hour on a new local day the
reset clears `TODAY` before the merge, so only `lowercase(S)` remains); apart
from that reset, no element already present in either set is ever removed. -/
theorem on_message_services_merges (s : SidecarState) (p : Payload)
    (now day hour RESET_H : Int) (svs : List String)
    (h1 : p.entered = none) (h2 : p.current = none) (h3 : p.today = none)
    (hsv : p.services = some svs) :
    (on_message s p now day hour RESET_H).CURR = s.CURR ∪ toLowerSet svs ∧
    ((s.LAST_RESET_DAY = some day ∨ hour < RESET_H) →
      (on_message s p now day hour RESET_H).TODAY = s.TODAY ∪ toLowerSet svs) := by
  have hco : coerce_services p now = (toLowerSet svs, ∅, ∅, some now) := by
    rw [coerce_services, if_neg (by rw [h1, h2, h3]; simp), if_pos (by rw [hsv]; rfl)]
    rw [hsv]
    rfl
  simp only [on_message, hco]
  rw [if_neg (by simp)]
  rw [if_neg (show ¬((∅ : Finset String) ≠ ∅) from fun h => h rfl),
    if_neg (show ¬((∅ : Finset String) ≠ ∅) from fun h => h rfl)]
  by_cases he : toLowerSet svs ≠ ∅
  · rw [if_pos he]
    constructor
    · show (ensure_reset_if_needed s day hour RESET_H).CURR ∪ toLowerSet svs =
        s.CURR ∪ toLowerSet svs
      rw [ensure_reset_if_needed_CURR]
    · intro hnr
      show (ensure_reset_if_needed s day hour RESET_H).TODAY ∪ toLowerSet svs =
        s.TODAY ∪ toLowerSet svs
      rw [ensure_reset_if_needed_of_noreset s day hour RESET_H hnr]
  · rw [if_neg he]
    have hemp : toLowerSet svs = ∅ := not_ne_iff.mp he
    rw [hemp, Finset.union_empty, Finset.union_empty]
    exact ⟨ensure_reset_if_needed_CURR s day hour RESET_H, fun hnr => by
      rw [ensure_reset_if_needed_of_noreset s day hour RESET_H hnr]⟩

/-- Witness for the amended C6: a services message `["UPS"]` handled before
the reset hour merges `{"ups"}` into both sets without dropping anything. -/
theorem on_message_services_merges_witness :
    (on_message ⟨{"a"}, {"b"}, some 0⟩ ⟨none, none, none, none, some ["UPS"]⟩
        100 1 2 3).CURR = ({"a"} : Finset String) ∪ toLowerSet ["UPS"] ∧
    ((⟨{"a"}, {"b"}, some 0⟩ : SidecarState).LAST_RESET_DAY = some 1 ∨ (2 : Int) < 3 →
      (on_message ⟨{"a"}, {"b"}, some 0⟩ ⟨none, none, none, none, some ["UPS"]⟩
        100 1 2 3).TODAY = ({"b"} : Finset String) ∪ toLowerSet ["UPS"]) :=
  on_message_services_merges ⟨{"a"}, {"b"}, some 0⟩
    ⟨none, none, none, none, some ["UPS"]⟩ 100 1 2 3 ["UPS"] rfl rfl rfl rfl

/-- Counterexample for C7 as stated: for a degenerate 1-by-1 frame with zero
stage-1 proposals, exactly one fallback proposal is synthesized, but its crop
is empty (`int(1/1.6) = 0`), so the `crop.size == 0` guard skips it and the
brand stage runs zero times — not at least once per call. -/
theorem fallback_center_crop_cex :
    fallback_proposals 1 1 [] = [⟨0, 0, 0, 0, "center", 1⟩] ∧
    brand_crops 16 (fallback_proposals 1 1 []) = [] := by
  constructor
  · decide
  · decide

/-- C7 amended: whenever stage 1 yields zero surviving proposals for a frame
of width `W` and height `H`, exactly one fallback proposal is synthesized — a
centered crop of size `int(W/1.6)` by `int(H/1.6)` — and, provided both frame
dimensions are at least 2 pixels (so that crop is non-degenerate), the brand
stage is still run on exactly that crop, hence at least once per call; for a
frame with a side of at most 1 pixel the synthesized crop is empty and the
brand stage is skipped. -/
theorem fallback_center_crop (W H : Nat) (hW : 2 ≤ W) (hH : 2 ≤ H) :
    fallback_proposals W H [] =
      [⟨(W - W * 10 / 16) / 2, (H - H * 10 / 16) / 2,
        (W - W * 10 / 16) / 2 + W * 10 / 16,
        (H - H * 10 / 16) / 2 + H * 10 / 16, "center", 1⟩] ∧
    brand_crops 16 (fallback_proposals W H []) =
      [⟨(W - W * 10 / 16) / 2, (H - H * 10 / 16) / 2,
        (W - W * 10 / 16) / 2 + W * 10 / 16,
        (H - H * 10 / 16) / 2 + H * 10 / 16, "center", 1⟩] := by
  have h1 : fallback_proposals W H [] =
      [⟨(W - W * 10 / 16) / 2, (H - H * 10 / 16) / 2,
        (W - W * 10 / 16) / 2 + W * 10 / 16,
        (H - H * 10 / 16) / 2 + H * 10 / 16, "center", 1⟩] := by
    rw [fallback_proposals]
    rfl
  refine ⟨h1, ?_⟩
  rw [h1, brand_crops]
  have hx : (W - W * 10 / 16) / 2 < (W - W * 10 / 16) / 2 + W * 10 / 16 := by omega
  have hy : (H - H * 10 / 16) / 2 < (H - H * 10 / 16) / 2 + H * 10 / 16 := by omega
  simp [List.filter, hx, hy]

/-- Witness for the amended C7 on a 100-by-62 frame: the single fallback
proposal is the centered 62-by-38 crop and the brand stage runs on it. -/
theorem fallback_center_crop_witness :
    fallback_proposals 100 62 [] = [⟨19, 12, 81, 50, "center", 1⟩] ∧
    brand_crops 16 (fallback_proposals 100 62 []) =
      [⟨19, 12, 81, 50, "center", 1⟩] := by
  have h := fallback_center_crop 100 62 (by decide) (by decide)
  exact h

/-- C8: the decoder normalizes the raw tensor's orientation by transposing it
exactly when its first axis is shorter than its second, and every normalized
tensor with fewer than 6 columns yields the empty result triple (no boxes, no
class ids, no confidences) rather than an error. -/
theorem decode_orientation_and_degenerate (o : List (List ℝ)) (ct : ℝ)
    (w h sz : Nat) :
    (o.length < colsOf o →
      decode_yolo_output o ct w h sz = decodeNormalized o.transpose ct w h sz) ∧
    (¬ o.length < colsOf o →
      decode_yolo_output o ct w h sz = decodeNormalized o ct w h sz) ∧
    (∀ o2 : List (List ℝ), colsOf o2 < 6 →
      decodeNormalized o2 ct w h sz = ([], [], [])) := by
  refine ⟨?_, ?_, ?_⟩
  · intro hlt
    rw [decode_yolo_output, if_pos hlt]
  · intro hlt
    rw [decode_yolo_output, if_neg hlt]
  · intro o2 hcols
    rw [decodeNormalized, if_pos hcols]

/-- Witness for C8: a single-row tensor is transposed (1 row shorter than 3
columns), and a 5-column normalized tensor decodes to the empty triple. -/
theorem decode_orientation_and_degenerate_witness :
    decode_yolo_output [[(1 : ℝ), 2, 3]] (3 / 10) 640 640 640 =
      decodeNormalized (List.transpose [[(1 : ℝ), 2, 3]]) (3 / 10) 640 640 640 ∧
    decodeNormalized [[(1 : ℝ), 2, 3, 4, 5]] (3 / 10) 640 640 640 = ([], [], []) := by
  have h := decode_orientation_and_degenerate [[(1 : ℝ), 2, 3]] (3 / 10) 640 640 640
  exact ⟨h.1 (by decide), h.2.2 [[(1 : ℝ), 2, 3, 4, 5]] (by decide)⟩

theorem le_foldl_max (l : List ℝ) (a : ℝ) : a ≤ l.foldl max a := by
  induction l generalizing a with
  | nil => exact le_rfl
  | cons x xs ih => exact le_trans (le_max_left a x) (ih (max a x))

theorem mem_le_foldl_max (l : List ℝ) (a : ℝ) : ∀ x ∈ l, x ≤ l.foldl max a := by
  induction l generalizing a with
  | nil =>
      intro x hx
      cases hx
  | cons y ys ih =>
      intro x hx
      rcases List.mem_cons.mp hx with rfl | hx
      · exact le_trans (le_max_right a x) (le_foldl_max ys (max a x))
      · exact ih (max a y) x hx

theorem le_listMax_of_mem {l : List ℝ} {x : ℝ} (hx : x ∈ l) : x ≤ listMax l := by
  match l with
  | [] => cases hx
  | y :: ys =>
      rw [listMax]
      rcases List.mem_cons.mp hx with rfl | hx2
      · exact le_foldl_max ys x
      · exact mem_le_foldl_max ys y x hx2

theorem foldl_min_le (l : List ℝ) (a : ℝ) : l.foldl min a ≤ a := by
  induction l generalizing a with
  | nil => exact le_rfl
  | cons x xs ih => exact le_trans (ih (min a x)) (min_le_left a x)

theorem foldl_min_le_mem (l : List ℝ) (a : ℝ) : ∀ x ∈ l, l.foldl min a ≤ x := by
  induction l generalizing a with
  | nil =>
      intro x hx
      cases hx
  | cons y ys ih =>
      intro x hx
      rcases List.mem_cons.mp hx with rfl | hx
      · exact le_trans (foldl_min_le ys (min a x)) (min_le_right a x)
      · exact ih (min a y) x hx

theorem listMin_le_of_mem {l : List ℝ} {x : ℝ} (hx : x ∈ l) : listMin l ≤ x := by
  match l with
  | [] => cases hx
  | y :: ys =>
      rw [listMin]
      rcases List.mem_cons.mp hx with rfl | hx2
      · exact foldl_min_le ys x
      · exact foldl_min_le_mem ys y x hx2

theorem mem_zipWith {f : ℝ → ℝ → ℝ} :
    ∀ {as : List ℝ} {bs : List ℝ} {c : ℝ}, c ∈ List.zipWith f as bs →
      ∃ a b, a ∈ as ∧ b ∈ bs ∧ c = f a b := by
  intro as
  induction as with
  | nil =>
      intro bs c hc
      simp at hc
  | cons a as ih =>
      intro bs c hc
      match bs with
      | [] => simp at hc
      | b :: bs =>
          rw [List.zipWith_cons_cons] at hc
          rcases List.mem_cons.mp hc with rfl | hc
          · exact ⟨a, b, List.mem_cons_self _ _, List.mem_cons_self _ _, rfl⟩
          · obtain ⟨a2, b2, ha, hb, rfl⟩ := ih hc
            exact ⟨a2, b2, List.mem_cons_of_mem _ ha, List.mem_cons_of_mem _ hb, rfl⟩

theorem getD_mem_or_default : ∀ (l : List ℝ) (n : Nat) (d : ℝ),
    l.getD n d ∈ l ∨ l.getD n d = d
  | [], _, _ => Or.inr rfl
  | x :: _, 0, _ => Or.inl (by simp)
  | x :: xs, n + 1, d => by
      rcases getD_mem_or_default xs n d with h | h
      · exact Or.inl (by rw [List.getD_cons_succ]; exact List.mem_cons_of_mem _ h)
      · exact Or.inr (by rw [List.getD_cons_succ]; exact h)

theorem sigmoid_pos (x : ℝ) : 0 < sigmoid x := by
  rw [sigmoid]
  have h := Real.exp_pos (-x)
  positivity

theorem sigmoid_lt_one (x : ℝ) : sigmoid x < 1 := by
  rw [sigmoid]
  have h := Real.exp_pos (-x)
  rw [div_lt_one (by linarith)]
  linarith

theorem decodeNormalized_conf_bounds (o : List (List ℝ)) (ct : ℝ) (w h sz : Nat) :
    ∀ c ∈ (decodeNormalized o ct w h sz).2.2, ct ≤ c ∧ -(3 / 4) ≤ c ∧ c ≤ 9 / 4 := by
  intro c hc
  by_cases hcols : colsOf o < 6
  · rw [decodeNormalized, if_pos hcols] at hc
    cases hc
  · simp only [decodeNormalized, if_neg hcols] at hc
    obtain ⟨rc, hrc, rfl⟩ := List.mem_map.mp hc
    have hkf := List.mem_filter.mp hrc
    refine ⟨of_decide_eq_true hkf.2, ?_⟩
    obtain ⟨r, cf, idx⟩ := rc
    have hz := List.of_mem_zip hkf.1
    have hz2 := List.of_mem_zip hz.2
    obtain ⟨a, b, ha, hb, hcf⟩ := mem_zipWith hz2.1
    obtain ⟨row, hrow, hbrow⟩ := List.mem_map.mp hb
    by_cases hsig : 3 / 2 < listMax (o.map fun r => r.getD 4 0) ∨
        listMin (o.map fun r => r.getD 4 0) < -(1 / 2) ∨
        3 / 2 < listMax ((o.map fun r => r.drop 5).flatten) ∨
        listMin ((o.map fun r => r.drop 5).flatten) < -(1 / 2)
    · rw [ensure_probs, if_pos hsig] at ha hrow
      obtain ⟨x, _, rfl⟩ := List.mem_map.mp ha
      obtain ⟨r0, _, rfl⟩ := List.mem_map.mp hrow
      have hb0 : 0 ≤ b ∧ b ≤ 1 := by
        rcases getD_mem_or_default (r0.map sigmoid) (argmaxIdx (r0.map sigmoid)) 0 with hm | hm
        · rw [hbrow] at hm
          obtain ⟨y, _, rfl⟩ := List.mem_map.mp hm
          exact ⟨le_of_lt (sigmoid_pos y), le_of_lt (sigmoid_lt_one y)⟩
        · rw [hbrow] at hm
          rw [hm]
          norm_num
      have hax := sigmoid_pos x
      have hax2 := sigmoid_lt_one x
      subst hcf
      constructor
      · nlinarith [hb0.1, hb0.2]
      · nlinarith [hb0.1, hb0.2]
    · rw [ensure_probs, if_neg hsig] at ha hrow
      push_neg at hsig
      have haB : -(1 / 2) ≤ a ∧ a ≤ 3 / 2 :=
        ⟨le_trans hsig.2.1 (listMin_le_of_mem ha),
          le_trans (le_listMax_of_mem ha) hsig.1⟩
      have hbB : -(1 / 2) ≤ b ∧ b ≤ 3 / 2 := by
        rcases getD_mem_or_default row (argmaxIdx row) 0 with hm | hm
        · rw [hbrow] at hm
          have hflat : b ∈ (o.map fun r => r.drop 5).flatten :=
            List.mem_flatten.mpr ⟨row, hrow, hm⟩
          exact ⟨le_trans hsig.2.2.2 (listMin_le_of_mem hflat),
            le_trans (le_listMax_of_mem hflat) hsig.2.2.1⟩
        · rw [hbrow] at hm
          rw [hm]
          norm_num
      subst hcf
      constructor
      · nlinarith [haB.1, haB.2, hbB.1, hbB.2]
      · nlinarith [haB.1, haB.2, hbB.1, hbB.2]

/-- Counterexample for C2 as stated: a 6-by-6 tensor whose rows are
`[0, 0, 0, 0, 1.2, 1.2]` has every objectness and class value inside
`[-0.5, 1.5]`, so no sigmoid is applied, and every row survives a 0.3
confidence threshold with combined confidence `1.2 * 1.2 = 1.44`, which is
not in `[0, 1]`. -/
theorem decode_conf_unit_interval_cex :
    (36 / 25 : ℝ) ∈ (decode_yolo_output
        [[0, 0, 0, 0, 6 / 5, 6 / 5], [0, 0, 0, 0, 6 / 5, 6 / 5],
         [0, 0, 0, 0, 6 / 5, 6 / 5], [0, 0, 0, 0, 6 / 5, 6 / 5],
         [0, 0, 0, 0, 6 / 5, 6 / 5], [0, 0, 0, 0, 6 / 5, 6 / 5]]
        (3 / 10) 640 640 640).2.2 ∧
    ¬ ((36 / 25 : ℝ) ≤ 1) := by
  constructor
  · norm_num [decode_yolo_output, decodeNormalized, colsOf, ensure_probs,
      listMax, listMin, argmaxIdx, List.filter, decide_eq_true_eq]
  · norm_num

/-- C2 amended: a surviving confidence is at least the confidence threshold
and lies in `[-3/4, 9/4]` — it lies in `(0, 1)` when the sigmoid guard fires,
and otherwise is a product of two raw values in `[-0.5, 1.5]`, which can
exceed 1 (up to 2.25) or be negative (down to -0.75), so `[0, 1]` does not
hold in general. -/
theorem decode_conf_bounds (o : List (List ℝ)) (ct : ℝ) (w h sz : Nat) :
    ∀ c ∈ (decode_yolo_output o ct w h sz).2.2,
      ct ≤ c ∧ -(3 / 4) ≤ c ∧ c ≤ 9 / 4 := by
  rw [decode_yolo_output]
  exact decodeNormalized_conf_bounds _ ct w h sz

/-- Witness for the amended C2 at the counterexample tensor: the surviving
confidence 1.44 is at least the 0.3 threshold and lies in `[-3/4, 9/4]`. -/
theorem decode_conf_bounds_witness :
    (3 / 10 : ℝ) ≤ 36 / 25 ∧ -(3 / 4 : ℝ) ≤ 36 / 25 ∧ (36 / 25 : ℝ) ≤ 9 / 4 :=
  decode_conf_bounds
    [[0, 0, 0, 0, 6 / 5, 6 / 5], [0, 0, 0, 0, 6 / 5, 6 / 5],
     [0, 0, 0, 0, 6 / 5, 6 / 5], [0, 0, 0, 0, 6 / 5, 6 / 5],
     [0, 0, 0, 0, 6 / 5, 6 / 5], [0, 0, 0, 0, 6 / 5, 6 / 5]]
    (3 / 10) 640 640 640 (36 / 25)
    (by norm_num [decode_yolo_output, decodeNormalized, colsOf, ensure_probs,
      listMax, listMin, argmaxIdx, List.filter, decide_eq_true_eq])

theorem getD_map_of_lt {β : Type} (f : Nat → β) (d : β) :
    ∀ (l : List Nat) (i : Nat), i < l.length → (l.map f).getD i d = f (l.getD i 0)
  | [], i, hi => absurd hi (by simp)
  | x :: xs, 0, _ => rfl
  | x :: xs, i + 1, hi => by
      rw [List.map_cons, List.getD_cons_succ, List.getD_cons_succ]
      exact getD_map_of_lt f d xs i (by simpa using hi)

theorem getD_mem_of_lt : ∀ (l : List Nat) (i : Nat), i < l.length → l.getD i 0 ∈ l
  | [], i, hi => absurd hi (by simp)
  | x :: xs, 0, _ => List.mem_cons_self _ _
  | x :: xs, i + 1, hi =>
      List.mem_cons_of_mem _ (getD_mem_of_lt xs i (by simpa using hi))

/-- C9: every hit produced by the final filter of `run_detection` has a label
in the allow set and a box whose (full-precision) area fraction is at least
`area_min_frac`; every hit originates from an index kept by `nms` run on the
full-precision confidences, and its reported confidence is the 3-digit
rounding of that full-precision confidence, applied in the output record only;
zero decoded candidates yield the empty hit list, and the function is total so
a well-formed empty result never raises. -/
theorem run_detection_spec (xyxy : List Box) (cls_ids : List Nat)
    (confs : List ℚ) (labels : Nat → String) (allow_labels : List String)
    (area_min_frac : ℚ) (w h : Nat) :
    (∀ hit ∈ run_detection xyxy cls_ids confs labels allow_labels area_min_frac w h,
      hit.label ∈ allow_labels ∧
      area_min_frac ≤ (hit.bbox.x2 - hit.bbox.x1) * (hit.bbox.y2 - hit.bbox.y1) /
        max 1 ((w : ℚ) * (h : ℚ)) ∧
      ∃ i ∈ nms xyxy confs (45 / 100),
        hit.bbox = xyxy.getD i default ∧
        hit.label = labels (cls_ids.getD i 0) ∧
        hit.conf = round3 (confs.getD i 0)) ∧
    run_detection [] [] [] labels allow_labels area_min_frac w h = [] := by
  constructor
  · intro hit hhit
    simp only [run_detection] at hhit
    obtain ⟨i, hir, hfi⟩ := List.mem_filterMap.mp hhit
    have hlt : i < (nms xyxy confs (45 / 100)).length := by
      have h2 := List.mem_range.mp hir
      simpa using h2
    split at hfi
    case isFalse => cases hfi
    case isTrue hcond =>
      obtain rfl := Option.some.inj hfi
      have hmap1 := getD_map_of_lt (fun j => xyxy.getD j default) default
        (nms xyxy confs (45 / 100)) i hlt
      have hmap2 := getD_map_of_lt (fun j => cls_ids.getD j 0) 0
        (nms xyxy confs (45 / 100)) i hlt
      have hmap3 := getD_map_of_lt (fun j => confs.getD j 0) 0
        (nms xyxy confs (45 / 100)) i hlt
      exact ⟨hcond.1, hcond.2,
        (nms xyxy confs (45 / 100)).getD i 0, getD_mem_of_lt _ i hlt,
        hmap1, congrArg labels hmap2, congrArg round3 hmap3⟩
  · rfl

theorem runDetectionEvalOneBox :
    run_detection [⟨0, 0, 10, 10⟩] [0] [9 / 10] (fun _ => "fedex") ["fedex"]
        (1 / 100) 100 100 =
      [⟨"fedex", round3 (9 / 10), ⟨0, 0, 10, 10⟩, round6 (1 / 100)⟩] := by
  norm_num [run_detection, nms, argsort, List.insertionSort, List.orderedInsert,
    scoreGE, nmsLoop, List.filterMap, max_def]

/-- Witness for C9 on one decoded candidate of confidence 0.9 with label
`fedex` covering 1 percent of a 100-by-100 image: the hit is produced, its
label is allowed, its area fraction meets the bound, it comes from the kept
index of the full-precision `nms`, its confidence is the rounded full-precision
value; and empty inputs give the empty hit list. -/
theorem run_detection_spec_witness :
    (("fedex" : String) ∈ ["fedex"] ∧
      (1 / 100 : ℚ) ≤ ((10 : ℚ) - 0) * ((10 : ℚ) - 0) / max 1 ((100 : ℚ) * (100 : ℚ)) ∧
      ∃ i ∈ nms [⟨0, 0, 10, 10⟩] [9 / 10] (45 / 100),
        (⟨0, 0, 10, 10⟩ : Box) = ([(⟨0, 0, 10, 10⟩ : Box)]).getD i default ∧
        ("fedex" : String) = (fun _ => "fedex") (([0] : List Nat).getD i 0) ∧
        round3 (9 / 10) = round3 (([9 / 10] : List ℚ).getD i 0)) ∧
    run_detection [] [] [] (fun _ => "fedex") ["fedex"] (1 / 100) 100 100 = [] := by
  have h := run_detection_spec [⟨0, 0, 10, 10⟩] [0] [9 / 10] (fun _ => "fedex")
    ["fedex"] (1 / 100) 100 100
  refine ⟨?_, (run_detection_spec [] [] [] (fun _ => "fedex") ["fedex"]
    (1 / 100) 100 100).2⟩
  have hmem : (⟨"fedex", round3 (9 / 10), ⟨0, 0, 10, 10⟩, round6 (1 / 100)⟩ : Hit) ∈
      run_detection [⟨0, 0, 10, 10⟩] [0] [9 / 10] (fun _ => "fedex") ["fedex"]
        (1 / 100) 100 100 := by
    rw [runDetectionEvalOneBox]
    exact List.mem_cons_self _ _
  exact h.1 _ hmem

end Mailcam
